import Mathlib

/-!
Verification of the checkpointing and batch-planning logic of the
`try-elasticsearch` CSV migration tool.

The embedding follows the Rust sources:
* `src/checkpoint.rs` — `MigrationCheckpoint` and its methods,
* `src/elasticsearch.rs` — `bulk_index_documents`,
* `src/main.rs` — the resume-skip loop and the batch construction loop.

Machine integers (`usize`, `u64`) are modelled as `Nat`: all the quantities
involved (record counts, indices) stay far below `2^64` in any run the spec
talks about, and none of the verified properties depend on wrap-around.
`f64` division in `progress_percentage` is modelled exactly over `ℚ`.
-/

namespace Migration

/-- Embedding of `struct MigrationCheckpoint` from `src/checkpoint.rs`.
`completed_batch_ranges` holds `(start_index, end_index)` pairs, and
`start_time` is a Unix timestamp. -/
structure MigrationCheckpoint where
  csv_file_path : String
  total_records : Nat
  processed_records : Nat
  successful_batches : Nat
  failed_batches : Nat
  completed_batch_ranges : List (Nat × Nat)
  start_time : Nat
deriving DecidableEq, Repr

/-- The comparison `sort_by_key(|r| r.0)` sorts by: first components ordered
by `≤`. -/
def startLE (a b : Nat × Nat) : Prop := a.1 ≤ b.1

instance : DecidableRel startLE := fun a b => inferInstanceAs (Decidable (a.1 ≤ b.1))

instance : IsTotal (Nat × Nat) startLE := ⟨fun a b => Nat.le_total a.1 b.1⟩

instance : IsTrans (Nat × Nat) startLE := ⟨fun _ _ _ h₁ h₂ => Nat.le_trans h₁ h₂⟩

/-- The `for (start, end) in sorted_ranges` loop inside
`get_safe_resume_point` (`src/checkpoint.rs`, lines 43–50): a range starting
exactly at the frontier advances it to the range's end, a range starting past
the frontier breaks out of the loop, and any other range is skipped. -/
def walkRanges : Nat → List (Nat × Nat) → Nat
  | safe_point, [] => safe_point
  | safe_point, (s, e) :: rest =>
    if s = safe_point then walkRanges e rest
    else if s > safe_point then safe_point
    else walkRanges safe_point rest

/-- `MigrationCheckpoint::get_safe_resume_point`. Rust's `sort_by_key` is a
stable sort; `List.insertionSort` is likewise stable (an element is inserted
before the first element of the sorted tail that it is `≤`-below, so elements
with equal keys keep their relative order), so it computes the same sorted
list. -/
def MigrationCheckpoint.get_safe_resume_point (cp : MigrationCheckpoint) : Nat :=
  if cp.completed_batch_ranges.isEmpty then 0
  else walkRanges 0 (List.insertionSort startLE cp.completed_batch_ranges)

/-- `MigrationCheckpoint::new`. The Rust code reads the wall clock for
`start_time`; the clock value is passed in as the explicit argument `now`. -/
def MigrationCheckpoint.new (csv_file_path : String) (total_records : Nat)
    (now : Nat) : MigrationCheckpoint :=
  ⟨csv_file_path, total_records, 0, 0, 0, [], now⟩

/-- `MigrationCheckpoint::add_completed_batch`: push `(start_index,
start_index + batch_size)` and bump the counters. -/
def MigrationCheckpoint.add_completed_batch (cp : MigrationCheckpoint)
    (start_index batch_size : Nat) : MigrationCheckpoint :=
  let end_index := start_index + batch_size
  ⟨cp.csv_file_path, cp.total_records, cp.processed_records + batch_size,
   cp.successful_batches + 1, cp.failed_batches,
   cp.completed_batch_ranges ++ [(start_index, end_index)], cp.start_time⟩

/-- `MigrationCheckpoint::add_failed_batch`: only `failed_batches` changes. -/
def MigrationCheckpoint.add_failed_batch (cp : MigrationCheckpoint) :
    MigrationCheckpoint :=
  ⟨cp.csv_file_path, cp.total_records, cp.processed_records,
   cp.successful_batches, cp.failed_batches + 1, cp.completed_batch_ranges,
   cp.start_time⟩

/-- `MigrationCheckpoint::is_completed`. -/
def MigrationCheckpoint.is_completed (cp : MigrationCheckpoint) : Bool :=
  cp.total_records ≤ cp.processed_records

/-- `MigrationCheckpoint::progress_percentage`. The `f64` arithmetic
`(processed as f64 / total as f64) * 100.0` is modelled exactly over `ℚ`. -/
def MigrationCheckpoint.progress_percentage (cp : MigrationCheckpoint) : ℚ :=
  if cp.total_records = 0 then 0
  else ((cp.processed_records : ℚ) / (cp.total_records : ℚ)) * 100

/-- `MigrationCheckpoint::load` (`src/checkpoint.rs`, lines 74–91). The file
system and `serde_json` are modelled as parameters: `artifact` is the content
of the checkpoint file when it exists (`Path::exists` / `read_to_string`),
and `decode` is JSON decoding, returning `none` on a decode failure (which
the Rust code propagates as an error with `?`). -/
def MigrationCheckpoint.load (artifact : Option String)
    (decode : String → Option MigrationCheckpoint) (csv_file : String) :
    Except String (Option MigrationCheckpoint) :=
  match artifact with
  | none => Except.ok none
  | some content =>
    match decode content with
    | none => Except.error "corrupt checkpoint"
    | some checkpoint =>
      if checkpoint.csv_file_path ≠ csv_file then Except.ok none
      else Except.ok (some checkpoint)

/-- The two checkpoint-mutating calls issued by the worker loop in
`src/main.rs` (lines 161 and 183). -/
inductive CheckpointOp where
  | completed (start_index batch_size : Nat)
  | failed
deriving DecidableEq, Repr

/-- Apply one mutating call to a checkpoint. -/
def applyOp (cp : MigrationCheckpoint) : CheckpointOp → MigrationCheckpoint
  | .completed s n => cp.add_completed_batch s n
  | .failed => cp.add_failed_batch

/-- Apply a finite sequence of mutating calls. -/
def runOps (cp : MigrationCheckpoint) (ops : List CheckpointOp) :
    MigrationCheckpoint :=
  ops.foldl applyOp cp

/-- C4: `add_completed_batch` appends exactly `(start_index, start_index +
batch_size)` to `completed_batch_ranges`, increases `processed_records` by
`batch_size` and `successful_batches` by one, with no deduplication: two
calls with the same arguments add `2 * batch_size` to `processed_records`. -/
theorem add_completed_batch_spec (cp : MigrationCheckpoint)
    (start_index batch_size : Nat) :
    (cp.add_completed_batch start_index batch_size).completed_batch_ranges
        = cp.completed_batch_ranges ++ [(start_index, start_index + batch_size)]
    ∧ (cp.add_completed_batch start_index batch_size).processed_records
        = cp.processed_records + batch_size
    ∧ (cp.add_completed_batch start_index batch_size).successful_batches
        = cp.successful_batches + 1
    ∧ ((cp.add_completed_batch start_index batch_size).add_completed_batch
          start_index batch_size).processed_records
        = cp.processed_records + 2 * batch_size := by
  refine ⟨rfl, rfl, rfl, ?_⟩
  show cp.processed_records + batch_size + batch_size
      = cp.processed_records + 2 * batch_size
  omega

/-- C5: `add_failed_batch` increments `failed_batches` by one and leaves
every other field unchanged; in particular `get_safe_resume_point` is
unchanged. -/
theorem add_failed_batch_frame (cp : MigrationCheckpoint) :
    cp.add_failed_batch.failed_batches = cp.failed_batches + 1
    ∧ cp.add_failed_batch.csv_file_path = cp.csv_file_path
    ∧ cp.add_failed_batch.total_records = cp.total_records
    ∧ cp.add_failed_batch.processed_records = cp.processed_records
    ∧ cp.add_failed_batch.successful_batches = cp.successful_batches
    ∧ cp.add_failed_batch.completed_batch_ranges = cp.completed_batch_ranges
    ∧ cp.add_failed_batch.start_time = cp.start_time
    ∧ cp.add_failed_batch.get_safe_resume_point = cp.get_safe_resume_point :=
  ⟨rfl, rfl, rfl, rfl, rfl, rfl, rfl, rfl⟩

/-- Everything strictly below the value `walkRanges` returns is either below
the initial frontier or covered by some range in the list being walked. -/
theorem walkRanges_cover (L : List (Nat × Nat)) :
    ∀ sp i, i < walkRanges sp L → i < sp ∨ ∃ r ∈ L, r.1 ≤ i ∧ i < r.2 := by
  induction L with
  | nil => intro sp i h; exact Or.inl h
  | cons hd tl ih =>
    intro sp i h
    obtain ⟨s, e⟩ := hd
    by_cases hs : s = sp
    · subst hs
      rw [walkRanges, if_pos rfl] at h
      rcases ih e i h with h' | ⟨r, hr, h1, h2⟩
      · by_cases hisp : i < s
        · exact Or.inl hisp
        · exact Or.inr ⟨(s, e), List.mem_cons_self _ _, le_of_not_lt hisp, h'⟩
      · exact Or.inr ⟨r, List.mem_cons_of_mem _ hr, h1, h2⟩
    · by_cases hgt : s > sp
      · rw [walkRanges, if_neg hs, if_pos hgt] at h
        exact Or.inl h
      · rw [walkRanges, if_neg hs, if_neg hgt] at h
        rcases ih sp i h with h' | ⟨r, hr, h1, h2⟩
        · exact Or.inl h'
        · exact Or.inr ⟨r, List.mem_cons_of_mem _ hr, h1, h2⟩

/-- C2: every index strictly below `get_safe_resume_point` lies inside at
least one recorded completed range — the resume point never skips a record
whose batch was not recorded as committed. -/
theorem get_safe_resume_point_covered (cp : MigrationCheckpoint) (i : Nat)
    (h : i < cp.get_safe_resume_point) :
    ∃ r ∈ cp.completed_batch_ranges, r.1 ≤ i ∧ i < r.2 := by
  unfold MigrationCheckpoint.get_safe_resume_point at h
  split at h
  · omega
  · rcases walkRanges_cover _ 0 i h with h' | ⟨r, hr, h1, h2⟩
    · omega
    · exact ⟨r, (List.perm_insertionSort startLE _).subset hr, h1, h2⟩

/-- Witness for C2 at the concrete state with ranges `[(0, 3)]` and `i = 1`. -/
theorem get_safe_resume_point_covered_witness :
    1 < (⟨"data.csv", 3, 3, 1, 0, [(0, 3)], 0⟩ :
        MigrationCheckpoint).get_safe_resume_point
    ∧ ∃ r ∈ (⟨"data.csv", 3, 3, 1, 0, [(0, 3)], 0⟩ :
        MigrationCheckpoint).completed_batch_ranges, r.1 ≤ 1 ∧ 1 < r.2 :=
  ⟨by decide, get_safe_resume_point_covered _ 1 (by decide)⟩

/-- C3: `get_safe_resume_point` walks the ranges sorted (stably) by start;
a range starting at the frontier advances the frontier to its end, a range
starting past the frontier stops the walk at once, and a range starting
below the frontier is skipped without advancing; on ranges
`[(0,100), (200,300)]` the result is `100`. -/
theorem get_safe_resume_point_algorithm :
    (∀ cp : MigrationCheckpoint,
        cp.get_safe_resume_point
          = walkRanges 0 (List.insertionSort startLE cp.completed_batch_ranges))
    ∧ (∀ l : List (Nat × Nat),
        List.Sorted startLE (List.insertionSort startLE l)
        ∧ (List.insertionSort startLE l).Perm l)
    ∧ (∀ sp s e rest, walkRanges sp ((s, e) :: rest)
        = if s = sp then walkRanges e rest
          else if s > sp then sp
          else walkRanges sp rest)
    ∧ (⟨"data.csv", 0, 0, 0, 0, [(0, 100), (200, 300)], 0⟩ :
        MigrationCheckpoint).get_safe_resume_point = 100 := by
  refine ⟨fun cp => ?_, fun l => ⟨List.sorted_insertionSort startLE l,
    List.perm_insertionSort startLE l⟩, fun sp s e rest => rfl, by decide⟩
  unfold MigrationCheckpoint.get_safe_resume_point
  split
  · rename_i hemp
    rw [List.isEmpty_iff.mp hemp]
    rfl
  · rfl

/-- C9 (amended): `progress_percentage` is `processed / total * 100`
(and `0` when `total_records = 0`); it is always nonnegative, and it is at
most `100` whenever `processed_records ≤ total_records` — but it exceeds
`100` when over-counting makes `processed_records` exceed `total_records`. -/
theorem progress_percentage_spec (cp : MigrationCheckpoint) :
    0 ≤ cp.progress_percentage
    ∧ (cp.total_records = 0 → cp.progress_percentage = 0)
    ∧ (cp.total_records ≠ 0 → cp.progress_percentage
        = (cp.processed_records : ℚ) / (cp.total_records : ℚ) * 100)
    ∧ (cp.processed_records ≤ cp.total_records →
        cp.progress_percentage ≤ 100) := by
  unfold MigrationCheckpoint.progress_percentage
  refine ⟨?_, fun h => by simp [h], fun h => by simp [h], fun h => ?_⟩
  · split
    · norm_num
    · positivity
  · split
    · norm_num
    · rename_i ht
      have htpos : (0 : ℚ) < (cp.total_records : ℚ) := by
        exact_mod_cast Nat.pos_of_ne_zero ht
      have hdiv : (cp.processed_records : ℚ) / (cp.total_records : ℚ) ≤ 1 := by
        rw [div_le_one htpos]
        exact_mod_cast h
      calc (cp.processed_records : ℚ) / (cp.total_records : ℚ) * 100
          ≤ 1 * 100 := by nlinarith
        _ = 100 := by norm_num

/-- Witness for C9 at the concrete state `processed = 2`, `total = 4`. -/
theorem progress_percentage_spec_witness :
    0 ≤ (⟨"data.csv", 4, 2, 1, 0, [(0, 2)], 0⟩ :
        MigrationCheckpoint).progress_percentage
    ∧ (⟨"data.csv", 4, 2, 1, 0, [(0, 2)], 0⟩ :
        MigrationCheckpoint).progress_percentage ≤ 100 :=
  ⟨(progress_percentage_spec _).1,
   (progress_percentage_spec _).2.2.2 (by decide)⟩

/-- Counterexample to C9 as stated: after `new(path, 1)` and
`add_completed_batch(0, 2)` (double-counting is by design), the percentage
is `200`, outside `[0, 100]`. -/
theorem progress_percentage_counterexample :
    (applyOp (MigrationCheckpoint.new "data.csv" 1 0)
        (CheckpointOp.completed 0 2)).progress_percentage = 200
    ∧ ¬ (applyOp (MigrationCheckpoint.new "data.csv" 1 0)
        (CheckpointOp.completed 0 2)).progress_percentage ≤ 100 := by
  have h : (applyOp (MigrationCheckpoint.new "data.csv" 1 0)
      (CheckpointOp.completed 0 2)).progress_percentage = 200 := by
    show ((2 : ℚ) / (1 : ℚ)) * 100 = 200
    norm_num
  exact ⟨h, by rw [h]; norm_num⟩

/-- Total length covered by a list of ranges (truncated subtraction ignores
malformed ranges with `end < start`, which reachable states never contain). -/
def rangesSpan (l : List (Nat × Nat)) : Nat :=
  (l.map (fun r => r.2 - r.1)).sum

/-- The walk never gets further than the initial frontier plus the total
span of the ranges it walks. -/
theorem walkRanges_le_span (L : List (Nat × Nat)) :
    ∀ sp, walkRanges sp L ≤ sp + rangesSpan L := by
  induction L with
  | nil => intro sp; simp [walkRanges, rangesSpan]
  | cons hd tl ih =>
    intro sp
    obtain ⟨s, e⟩ := hd
    have hspan : rangesSpan ((s, e) :: tl) = (e - s) + rangesSpan tl := by
      simp [rangesSpan]
    by_cases hs : s = sp
    · rw [walkRanges, if_pos hs]
      have := ih e
      omega
    · by_cases hgt : s > sp
      · rw [walkRanges, if_neg hs, if_pos hgt]
        omega
      · rw [walkRanges, if_neg hs, if_neg hgt]
        have := ih sp
        omega

/-- A permutation of a range list has the same span. -/
theorem rangesSpan_perm {l₁ l₂ : List (Nat × Nat)} (h : l₁.Perm l₂) :
    rangesSpan l₁ = rangesSpan l₂ := by
  unfold rangesSpan
  exact List.Perm.sum_eq (List.Perm.map (fun r => r.2 - r.1) h)

/-- In any checkpoint state, the safe resume point is bounded by the total
span of the recorded ranges. -/
theorem get_safe_resume_point_le_span (cp : MigrationCheckpoint) :
    cp.get_safe_resume_point ≤ rangesSpan cp.completed_batch_ranges := by
  unfold MigrationCheckpoint.get_safe_resume_point
  split
  · omega
  · have h := walkRanges_le_span
      (List.insertionSort startLE cp.completed_batch_ranges) 0
    rwa [rangesSpan_perm (List.perm_insertionSort startLE _), Nat.zero_add] at h

/-- Each mutating call keeps the span of the ranges equal to
`processed_records`. -/
theorem applyOp_span_invariant (cp : MigrationCheckpoint) (op : CheckpointOp)
    (h : rangesSpan cp.completed_batch_ranges = cp.processed_records) :
    rangesSpan (applyOp cp op).completed_batch_ranges
      = (applyOp cp op).processed_records := by
  cases op with
  | completed s n =>
    show rangesSpan (cp.completed_batch_ranges ++ [(s, s + n)])
        = cp.processed_records + n
    simp [rangesSpan] at h ⊢
    omega
  | failed => exact h

/-- The span invariant holds along any sequence of mutating calls. -/
theorem runOps_span_invariant (ops : List CheckpointOp) :
    ∀ cp : MigrationCheckpoint,
      rangesSpan cp.completed_batch_ranges = cp.processed_records →
      rangesSpan (runOps cp ops).completed_batch_ranges
        = (runOps cp ops).processed_records := by
  induction ops with
  | nil => intro cp h; exact h
  | cons op rest ih =>
    intro cp h
    exact ih (applyOp cp op) (applyOp_span_invariant cp op h)

/-- C10: for every checkpoint reachable from `new` by `add_completed_batch`
and `add_failed_batch` calls, the safe resume point is at most
`processed_records`. -/
theorem get_safe_resume_point_le_processed (path : String) (total now : Nat)
    (ops : List CheckpointOp) :
    (runOps (MigrationCheckpoint.new path total now) ops).get_safe_resume_point
      ≤ (runOps (MigrationCheckpoint.new path total now) ops).processed_records := by
  have hinv := runOps_span_invariant ops (MigrationCheckpoint.new path total now)
    (by simp [MigrationCheckpoint.new, rangesSpan])
  calc (runOps (MigrationCheckpoint.new path total now) ops).get_safe_resume_point
      ≤ rangesSpan (runOps (MigrationCheckpoint.new path total now)
          ops).completed_batch_ranges := get_safe_resume_point_le_span _
    _ = (runOps (MigrationCheckpoint.new path total now) ops).processed_records :=
        hinv

/-- C6: `load` returns `ok none` when no checkpoint artifact exists, an
error when the artifact exists but cannot be decoded, and `ok none` (start
fresh, not an error) when it decodes to a checkpoint recorded for a
different CSV file. -/
theorem load_spec (decode : String → Option MigrationCheckpoint)
    (csv_file content : String) (cp : MigrationCheckpoint) :
    MigrationCheckpoint.load none decode csv_file = Except.ok none
    ∧ (decode content = none → ∃ msg,
        MigrationCheckpoint.load (some content) decode csv_file
          = Except.error msg)
    ∧ (decode content = some cp → cp.csv_file_path ≠ csv_file →
        MigrationCheckpoint.load (some content) decode csv_file
          = Except.ok none) := by
  refine ⟨rfl, fun h => ⟨"corrupt checkpoint", ?_⟩, fun h hne => ?_⟩
  · simp [MigrationCheckpoint.load, h]
  · simp [MigrationCheckpoint.load, h, hne]

/-- Witness for C6: a missing artifact, an undecodable artifact, and an
artifact recorded for a different CSV file. -/
theorem load_spec_witness :
    MigrationCheckpoint.load none (fun _ => none) "data.csv" = Except.ok none
    ∧ (∃ msg, MigrationCheckpoint.load (some "garbage") (fun _ => none)
        "data.csv" = Except.error msg)
    ∧ MigrationCheckpoint.load (some "{}")
        (fun _ => some ⟨"other.csv", 0, 0, 0, 0, [], 0⟩) "data.csv"
        = Except.ok none :=
  ⟨(load_spec (fun _ => none) "data.csv" "garbage"
      ⟨"other.csv", 0, 0, 0, 0, [], 0⟩).1,
   (load_spec (fun _ => none) "data.csv" "garbage"
      ⟨"other.csv", 0, 0, 0, 0, [], 0⟩).2.1 rfl,
   (load_spec (fun _ => some ⟨"other.csv", 0, 0, 0, 0, [], 0⟩) "data.csv" "{}"
      ⟨"other.csv", 0, 0, 0, 0, [], 0⟩).2.2 rfl (by simp)⟩

/-- A document handed to `bulk_index_documents` (`src/elasticsearch.rs`).
Only the `token_id` field steers the function's control flow (documents
without one are skipped when the bulk body is built); the remaining fields
are serialized into the request body and do not affect the returned count. -/
structure ElasticsearchDocument where
  token_id : Option String
deriving DecidableEq, Repr

/-- One entry of the `items` array of a bulk response; `error` is the
optional `index.error` object. -/
structure BulkItem where
  error : Option String
deriving DecidableEq, Repr

/-- Outcome of the POST to `/_bulk`: an HTTP-success response carrying the
per-document `items`, or a transport-level/HTTP failure status. -/
inductive BulkResponse where
  | success (items : List BulkItem)
  | failure (status : Nat)
deriving DecidableEq, Repr

/-- `valid_docs` as counted by the body-building loop
(`src/elasticsearch.rs`, lines 20–37): documents with a `token_id`. -/
def validDocsCount (documents : List ElasticsearchDocument) : Nat :=
  (documents.filter (fun d => d.token_id.isSome)).length

/-- The `errors` count extracted from the response items
(`src/elasticsearch.rs`, lines 55–63); it is only logged. -/
def bulkErrorCount (items : List BulkItem) : Nat :=
  (items.filter (fun it => it.error.isSome)).length

/-- `bulk_index_documents` (`src/elasticsearch.rs`): early `Ok(0)` for an
empty input or when no document has an identifier; otherwise the bulk
request is sent and the `response` parameter stands for its outcome. On
HTTP success the function returns `Ok(valid_docs)` after logging any
per-document errors; on failure it returns an error. -/
def bulk_index_documents (documents : List ElasticsearchDocument)
    (response : BulkResponse) : Except Nat Nat :=
  if documents.isEmpty then Except.ok 0
  else if validDocsCount documents = 0 then Except.ok 0
  else match response with
    | .success _items => Except.ok (validDocsCount documents)
    | .failure status => Except.error status

/-- C8 (amended): when the transport call succeeds, documents lacking an
identifier are dropped before counting, per-document errors never turn the
batch into a failure, and the committed count equals the number of
identifier-bearing documents — it is *not* reduced by per-document
errors. -/
theorem bulk_index_documents_success_spec
    (documents : List ElasticsearchDocument) (items : List BulkItem) :
    bulk_index_documents documents (BulkResponse.success items)
      = Except.ok (validDocsCount documents) := by
  unfold bulk_index_documents
  split
  · rename_i h
    rw [List.isEmpty_iff.mp h]
    rfl
  · split
    · rename_i h
      rw [h]
    · rfl

/-- Counterexample to C8 as stated: one identifier-bearing document whose
item carries a per-document error still yields committed count `1`, not
`1 - 1 = 0` — the count is not reduced by per-document errors. -/
theorem bulk_index_documents_counterexample :
    bulk_index_documents [⟨some "42"⟩]
        (BulkResponse.success [⟨some "mapper_parsing_exception"⟩])
      = Except.ok 1
    ∧ bulkErrorCount [⟨some "mapper_parsing_exception"⟩] = 1
    ∧ validDocsCount [⟨some "42"⟩]
        - bulkErrorCount [⟨some "mapper_parsing_exception"⟩] = 0
    ∧ (1 : Nat) ≠ 0 := ⟨rfl, rfl, rfl, by decide⟩

/-- The half-open interval of indices a completed range covers. -/
def rangeSet (r : Nat × Nat) : Set Nat := Set.Ico r.1 r.2

/-- The set of indices covered by a list of completed ranges. -/
def rangesUnion (l : List (Nat × Nat)) : Set Nat :=
  l.foldr (fun r s => rangeSet r ∪ s) ∅

theorem rangesUnion_cons (r : Nat × Nat) (l : List (Nat × Nat)) :
    rangesUnion (r :: l) = rangeSet r ∪ rangesUnion l := rfl

theorem mem_rangesUnion {x : Nat} {l : List (Nat × Nat)} :
    x ∈ rangesUnion l ↔ ∃ r ∈ l, x ∈ rangeSet r := by
  induction l with
  | nil => simp [rangesUnion]
  | cons hd tl ih =>
    rw [rangesUnion_cons]
    constructor
    · intro hx
      rcases (Set.mem_union _ _ _).mp hx with hmem | hmem
      · exact ⟨hd, List.mem_cons_self _ _, hmem⟩
      · obtain ⟨r, hr, hxr⟩ := ih.mp hmem
        exact ⟨r, List.mem_cons_of_mem _ hr, hxr⟩
    · rintro ⟨r, hr, hxr⟩
      rcases List.mem_cons.mp hr with rfl | hr'
      · exact Set.mem_union_left _ hxr
      · exact Set.mem_union_right _ (ih.mpr ⟨r, hr', hxr⟩)

theorem rangesUnion_perm {l₁ l₂ : List (Nat × Nat)} (h : l₁.Perm l₂) :
    rangesUnion l₁ = rangesUnion l₂ := by
  ext x
  simp only [mem_rangesUnion]
  constructor <;> rintro ⟨r, hr, hx⟩
  · exact ⟨r, h.subset hr, hx⟩
  · exact ⟨r, h.symm.subset hr, hx⟩

/-- The crux of C1: on a list of well-formed ranges sorted by start,
pairwise disjoint, whose union is exactly `[sp, k)`, the walk started at
frontier `sp` ends at `k`. -/
theorem walkRanges_exact_cover :
    ∀ (L : List (Nat × Nat)) (sp k : Nat), sp ≤ k →
      (∀ r ∈ L, r.1 ≤ r.2) →
      List.Pairwise startLE L →
      List.Pairwise (fun a b => Disjoint (rangeSet a) (rangeSet b)) L →
      rangesUnion L = Set.Ico sp k →
      walkRanges sp L = k := by
  intro L
  induction L with
  | nil =>
    intro sp k hsk _ _ _ hU
    have hk : ¬ sp < k := Set.Ico_eq_empty_iff.mp hU.symm
    show sp = k
    omega
  | cons hd tl ih =>
    intro sp k hsk hwf hsort hdisj hU
    obtain ⟨s, e⟩ := hd
    have hse : s ≤ e := hwf (s, e) (List.mem_cons_self _ _)
    have hwf' : ∀ r ∈ tl, r.1 ≤ r.2 := fun r hr => hwf r (List.mem_cons_of_mem _ hr)
    have hsort' : List.Pairwise startLE tl := hsort.of_cons
    have hdisj' : List.Pairwise (fun a b => Disjoint (rangeSet a) (rangeSet b)) tl :=
      hdisj.of_cons
    have hsortHd : ∀ b ∈ tl, s ≤ b.1 := (List.pairwise_cons.mp hsort).1
    have hdisjHd : ∀ b ∈ tl, Disjoint (rangeSet (s, e)) (rangeSet b) :=
      (List.pairwise_cons.mp hdisj).1
    rw [rangesUnion_cons] at hU
    by_cases hs : s = sp
    · -- the head range starts exactly at the frontier: advance to its end
      have hek : e ≤ k := by
        rcases Nat.eq_or_lt_of_le hse with heq | hlt
        · omega
        · have hmem : (e - 1) ∈ rangeSet (s, e) := by
            simp only [rangeSet, Set.mem_Ico]
            omega
          have hik : (e - 1) ∈ Set.Ico sp k := by
            rw [← hU]
            exact Set.mem_union_left _ hmem
          simp only [Set.mem_Ico] at hik
          omega
      have hU' : rangesUnion tl = Set.Ico e k := by
        ext x
        simp only [Set.mem_Ico]
        constructor
        · intro hx
          have hx1 : x ∈ Set.Ico sp k := by
            rw [← hU]
            exact Set.mem_union_right _ hx
          have hx2 : x ∉ rangeSet (s, e) := by
            obtain ⟨r, hr, hxr⟩ := mem_rangesUnion.mp hx
            exact fun hcon => Set.disjoint_left.mp (hdisjHd r hr) hcon hxr
          simp only [Set.mem_Ico] at hx1
          simp only [rangeSet, Set.mem_Ico, not_and, not_lt] at hx2
          omega
        · intro hx
          have hx1 : x ∈ Set.Ico sp k := by
            simp only [Set.mem_Ico]
            omega
          rw [← hU] at hx1
          rcases (Set.mem_union _ _ _).mp hx1 with hmem | hmem
          · exfalso
            simp only [rangeSet, Set.mem_Ico] at hmem
            omega
          · exact hmem
      rw [walkRanges, if_pos hs]
      exact ih e k hek hwf' hsort' hdisj' hU'
    · by_cases hgt : s > sp
      · -- the head range starts past the frontier: there is a gap, so the
        -- interval [sp, k) must already be empty
        rw [walkRanges, if_neg hs, if_pos hgt]
        by_contra hne
        have hlt : sp < k := by omega
        have hm : sp ∈ Set.Ico sp k := by
          simp only [Set.mem_Ico]
          omega
        rw [← hU] at hm
        rcases (Set.mem_union _ _ _).mp hm with hmem | hmem
        · simp only [rangeSet, Set.mem_Ico] at hmem
          omega
        · obtain ⟨r, hr, hxr⟩ := mem_rangesUnion.mp hmem
          have hrb := hsortHd r hr
          simp only [rangeSet, Set.mem_Ico] at hxr
          omega
      · -- the head range starts strictly below the frontier: it must be
        -- empty, and the walk skips it
        have hslt : s < sp := by omega
        have hempty : e ≤ s := by
          by_contra hgt2
          push_neg at hgt2
          have hm : s ∈ Set.Ico sp k := by
            rw [← hU]
            refine Set.mem_union_left _ ?_
            simp only [rangeSet, Set.mem_Ico]
            omega
          simp only [Set.mem_Ico] at hm
          omega
        have hU' : rangesUnion tl = Set.Ico sp k := by
          rw [← hU]
          have hes : rangeSet (s, e) = ∅ := Set.Ico_eq_empty (by omega)
          rw [hes, Set.empty_union]
        rw [walkRanges, if_neg hs, if_neg hgt]
        exact ih sp k hsk hwf' hsort' hdisj' hU'

/-- C1 (amended): for pairwise-disjoint well-formed completed ranges (each
`[a, b)` with `a ≤ b`) whose union is exactly `[0, k)`, the safe resume
point is `k`, whatever the order in which the ranges were appended. -/
theorem get_safe_resume_point_of_exact_cover (cp : MigrationCheckpoint)
    (k : Nat)
    (hwf : ∀ r ∈ cp.completed_batch_ranges, r.1 ≤ r.2)
    (hdisj : List.Pairwise (fun a b => Disjoint (rangeSet a) (rangeSet b))
        cp.completed_batch_ranges)
    (hcover : rangesUnion cp.completed_batch_ranges = Set.Ico 0 k) :
    cp.get_safe_resume_point = k := by
  unfold MigrationCheckpoint.get_safe_resume_point
  split
  · rename_i hemp
    rw [List.isEmpty_iff.mp hemp] at hcover
    have hk : ¬ 0 < k := Set.Ico_eq_empty_iff.mp hcover.symm
    omega
  · have hperm := List.perm_insertionSort startLE cp.completed_batch_ranges
    refine walkRanges_exact_cover _ 0 k (Nat.zero_le k) ?_ ?_ ?_ ?_
    · exact fun r hr => hwf r (hperm.subset hr)
    · exact List.sorted_insertionSort startLE _
    · exact (List.Perm.pairwise_iff (fun h => Disjoint.symm h) hperm).mpr hdisj
    · rw [rangesUnion_perm hperm]
      exact hcover

/-- Witness for C1: the out-of-order ranges `[(50, 100), (0, 50)]` tile
`[0, 100)` and the safe resume point is `100`. -/
theorem get_safe_resume_point_of_exact_cover_witness :
    (⟨"data.csv", 100, 100, 2, 0, [(50, 100), (0, 50)], 0⟩ :
        MigrationCheckpoint).get_safe_resume_point = 100 :=
  get_safe_resume_point_of_exact_cover _ 100
    (by decide)
    (by
      refine List.Pairwise.cons ?_ (List.pairwise_singleton _ _)
      intro b hb
      rw [List.mem_singleton] at hb
      subst hb
      simp only [rangeSet, Set.disjoint_left, Set.mem_Ico]
      intro a h1 h2
      omega)
    (by
      ext x
      simp only [rangesUnion, List.foldr_cons, List.foldr_nil, rangeSet,
        Set.mem_union, Set.mem_Ico, Set.mem_empty_iff_false, or_false]
      omega)

/-- Counterexample to C1 as stated: the overlapping multiset
`{[0,1), [0,2)}` covers `[0, 2)` exactly with no gaps, yet in this append
order the safe resume point is `1`, not `2`. -/
theorem exact_cover_counterexample :
    rangesUnion [(0, 1), (0, 2)] = Set.Ico 0 2
    ∧ (⟨"data.csv", 2, 3, 2, 0, [(0, 1), (0, 2)], 0⟩ :
        MigrationCheckpoint).get_safe_resume_point = 1
    ∧ (1 : Nat) ≠ 2 := by
  refine ⟨?_, by decide, by decide⟩
  ext x
  simp only [rangesUnion, List.foldr_cons, List.foldr_nil, rangeSet,
    Set.mem_union, Set.mem_Ico, Set.mem_empty_iff_false, or_false]
  omega

/-- The resume-skip loop in `main` (`src/main.rs`, lines 69–80): records are
deserialized one by one with a running `record_index` starting at `0`; those
with index below the resume point are skipped, the rest are pushed paired
with their original index. -/
def collectRecords {α : Type} (resume_point : Nat) :
    Nat → List α → List (Nat × α)
  | _, [] => []
  | record_index, r :: rest =>
    if record_index < resume_point then
      collectRecords resume_point (record_index + 1) rest
    else
      (record_index, r) :: collectRecords resume_point (record_index + 1) rest

/-- The batch construction loop in `main` (`src/main.rs`, lines 107–127),
including the trailing flush of a non-empty final batch. The three trailing
arguments are the loop's mutable state `batches`, `current_batch` and
`batch_start_index`; the Rust locals `batch_start_index` (reset when
`current_batch` is empty) and the grown `current_batch` are inlined at each
use site. -/
def batchLoop {α : Type} (batch_size : Nat) :
    List (Nat × α) → List (Nat × List α) → List α → Nat → List (Nat × List α)
  | [], batches, current_batch, batch_start_index =>
    if current_batch.isEmpty then batches
    else batches ++ [(batch_start_index, current_batch)]
  | (record_index, record) :: rest, batches, current_batch, batch_start_index =>
    if batch_size ≤ (current_batch ++ [record]).length then
      batchLoop batch_size rest
        (batches ++
          [((if current_batch.isEmpty then record_index else batch_start_index),
            current_batch ++ [record])])
        []
        (if current_batch.isEmpty then record_index else batch_start_index)
    else
      batchLoop batch_size rest batches (current_batch ++ [record])
        (if current_batch.isEmpty then record_index else batch_start_index)

/-- The complete planner of `main`: skip the safely-processed prefix, then
cut batches, with the loop state initialized as in the Rust code
(`batches = []`, `current_batch = []`, `batch_start_index = 0`). -/
def planBatches {α : Type} (batch_size resume_point : Nat)
    (records : List α) : List (Nat × List α) :=
  batchLoop batch_size (collectRecords resume_point 0 records) [] [] 0

/-- Specification-side description of the planner's output (the refinement
target C7 compares the code against): consecutive chunks of `batch_size`
records labelled with their start indices. `fuel` bounds the recursion and
is always instantiated with the list's length. -/
def chunkFrom {α : Type} (batch_size : Nat) :
    Nat → Nat → List α → List (Nat × List α)
  | _, 0, _ => []
  | start, fuel + 1, l =>
    if l.isEmpty then []
    else (start, l.take batch_size) ::
      chunkFrom batch_size (start + batch_size) fuel (l.drop batch_size)

theorem chunkFrom_empty {α : Type} (B start fuel : Nat) :
    chunkFrom (α := α) B start fuel [] = [] := by
  cases fuel <;> rfl

theorem chunkFrom_fuel {α : Type} (B : Nat) (hB : 0 < B) :
    ∀ (f₁ f₂ : Nat) (start : Nat) (l : List α),
      l.length ≤ f₁ → l.length ≤ f₂ →
      chunkFrom B start f₁ l = chunkFrom B start f₂ l := by
  intro f₁
  induction f₁ with
  | zero =>
    intro f₂ start l h1 h2
    have hl : l = [] := List.length_eq_zero.mp (Nat.le_zero.mp h1)
    subst hl
    rw [chunkFrom_empty, chunkFrom_empty]
  | succ f ih =>
    intro f₂ start l h1 h2
    cases l with
    | nil => rw [chunkFrom_empty, chunkFrom_empty]
    | cons r rs =>
      cases f₂ with
      | zero => simp at h2
      | succ f₂' =>
        simp only [chunkFrom, List.isEmpty_cons, Bool.false_eq_true, if_false]
        congr 1
        refine ih f₂' (start + B) ((r :: rs).drop B) ?_ ?_
        · simp only [List.length_drop, List.length_cons]
          simp only [List.length_cons] at h1
          omega
        · simp only [List.length_drop, List.length_cons]
          simp only [List.length_cons] at h2
          omega

theorem chunkFrom_cons {α : Type} (B : Nat) (hB : 0 < B) (l : List α)
    (hl : l ≠ []) (start : Nat) :
    chunkFrom B start l.length l
      = (start, l.take B) ::
        chunkFrom B (start + B) (l.drop B).length (l.drop B) := by
  cases l with
  | nil => exact absurd rfl hl
  | cons r rs =>
    rw [List.length_cons]
    simp only [chunkFrom, List.isEmpty_cons, Bool.false_eq_true, if_false]
    congr 1
    refine chunkFrom_fuel B hB rs.length ((r :: rs).drop B).length (start + B)
      ((r :: rs).drop B) ?_ (le_refl _)
    simp only [List.length_drop, List.length_cons]
    omega

theorem collectRecords_of_ge {α : Type} (resume_point : Nat) :
    ∀ (l : List α) (i : Nat), resume_point ≤ i →
      collectRecords resume_point i l = l.enumFrom i := by
  intro l
  induction l with
  | nil => intro i _; rfl
  | cons r rs ih =>
    intro i hi
    simp only [collectRecords, if_neg (by omega : ¬ i < resume_point)]
    show (i, r) :: collectRecords resume_point (i + 1) rs
        = (i, r) :: rs.enumFrom (i + 1)
    rw [ih (i + 1) (by omega)]

/-- The skip loop keeps exactly the records at index `resume_point` and
beyond, paired with their original indices. -/
theorem collectRecords_eq_enumFrom_drop {α : Type} (resume_point : Nat) :
    ∀ (l : List α) (i : Nat), i ≤ resume_point →
      collectRecords resume_point i l
        = (l.drop (resume_point - i)).enumFrom resume_point := by
  intro l
  induction l with
  | nil => intro i _; simp [collectRecords, List.drop_nil]
  | cons r rs ih =>
    intro i hi
    by_cases hlt : i < resume_point
    · simp only [collectRecords, if_pos hlt]
      rw [ih (i + 1) (by omega)]
      have hd : resume_point - i = (resume_point - (i + 1)) + 1 := by omega
      rw [hd, List.drop_succ_cons]
    · have hie : i = resume_point := by omega
      subst hie
      rw [collectRecords_of_ge i (r :: rs) i (le_refl i),
        Nat.sub_self, List.drop_zero]

/-- `batchLoop` only ever appends to the `batches` accumulator. -/
theorem batchLoop_append {α : Type} (B : Nat) :
    ∀ (recs : List (Nat × α)) (batches : List (Nat × List α))
      (cur : List α) (st : Nat),
      batchLoop B recs batches cur st
        = batches ++ batchLoop B recs [] cur st := by
  intro recs
  induction recs with
  | nil =>
    intro batches cur st
    by_cases h : cur.isEmpty <;> simp [batchLoop, h]
  | cons hd rest ih =>
    intro batches cur st
    obtain ⟨ri, r⟩ := hd
    simp only [batchLoop]
    by_cases h : B ≤ (cur ++ [r]).length
    · rw [if_pos h, if_pos h]
      rw [ih (batches ++ [((if cur.isEmpty then ri else st), cur ++ [r])]) [] _,
        ih ([] ++ [((if cur.isEmpty then ri else st), cur ++ [r])]) [] _]
      simp
    · rw [if_neg h, if_neg h]
      rw [ih batches (cur ++ [r]) _, ih [] (cur ++ [r]) _]

/-- The batch construction loop, run on records carrying consecutive indices
from `start` with a partially filled `current_batch` of less than
`batch_size` records, produces the partial batch topped up to `batch_size`
followed by the consecutive chunks of the rest. -/
theorem batchLoop_eq_chunk {α : Type} (B : Nat) (hB : 0 < B) :
    ∀ (l : List α) (start : Nat) (cur : List α) (st : Nat),
      cur.length < B →
      batchLoop B (l.enumFrom start) [] cur st
        = if cur.isEmpty then chunkFrom B start l.length l
          else if cur.length + l.length ≤ B then [(st, cur ++ l)]
          else
            (st, cur ++ l.take (B - cur.length)) ::
              chunkFrom B (start + (B - cur.length))
                (l.drop (B - cur.length)).length (l.drop (B - cur.length)) := by
  intro l
  induction l with
  | nil =>
    intro start cur st hcur
    by_cases hc : cur.isEmpty
    · simp [batchLoop, List.enumFrom, hc, chunkFrom_empty]
    · have hle : cur.length ≤ B := by omega
      simp [batchLoop, List.enumFrom, hc, hle]
  | cons r rs ih =>
    intro start cur st hcur
    have henum : (r :: rs).enumFrom start = (start, r) :: rs.enumFrom (start + 1) :=
      rfl
    rw [henum]
    by_cases hc : cur.isEmpty
    · -- empty current batch: the head record opens a batch starting at `start`
      have hcnil : cur = [] := List.isEmpty_iff.mp hc
      subst hcnil
      rw [if_pos hc]
      have hstep : batchLoop B ((start, r) :: rs.enumFrom (start + 1)) [] [] st
          = if B ≤ 1 then
              batchLoop B (rs.enumFrom (start + 1)) [(start, [r])] [] start
            else batchLoop B (rs.enumFrom (start + 1)) [] [r] start := rfl
      rw [hstep]
      rw [chunkFrom_cons B hB (r :: rs) (by simp) start]
      by_cases hflush : B ≤ 1
      · have hB1 : B = 1 := by omega
        rw [if_pos hflush]
        rw [batchLoop_append B (rs.enumFrom (start + 1)) [(start, [r])] [] start]
        rw [ih (start + 1) [] start (by simpa using hB)]
        rw [if_pos (by simp : (([] : List α)).isEmpty = true)]
        subst hB1
        rfl
      · rw [if_neg hflush]
        have hr1 : ([r] : List α).length < B := by
          simp only [List.length_singleton]
          omega
        rw [ih (start + 1) [r] start hr1]
        rw [if_neg (by simp : ¬ (([r] : List α)).isEmpty = true)]
        simp only [List.length_singleton]
        by_cases h1 : 1 + rs.length ≤ B
        · rw [if_pos h1]
          have htake : (r :: rs).take B = r :: rs :=
            List.take_of_length_le (by simp; omega)
          have hdrop : (r :: rs).drop B = [] :=
            List.drop_eq_nil_of_le (by simp; omega)
          rw [htake, hdrop, chunkFrom_empty]
          simp
        · rw [if_neg h1]
          obtain ⟨d, hd⟩ : ∃ d, B = d + 1 := ⟨B - 1, by omega⟩
          subst hd
          simp only [Nat.add_sub_cancel, List.take_succ_cons, List.drop_succ_cons,
            List.singleton_append]
          have hstart : start + 1 + d = start + (d + 1) := by omega
          rw [hstart]
    · -- non-empty current batch started at `st`
      rw [if_neg hc]
      have hstep : batchLoop B ((start, r) :: rs.enumFrom (start + 1)) [] cur st
          = if B ≤ (cur ++ [r]).length then
              batchLoop B (rs.enumFrom (start + 1))
                ([] ++ [((if cur.isEmpty then start else st), cur ++ [r])]) []
                (if cur.isEmpty then start else st)
            else
              batchLoop B (rs.enumFrom (start + 1)) [] (cur ++ [r])
                (if cur.isEmpty then start else st) := rfl
      rw [hstep]
      simp only [if_neg hc, List.nil_append]
      have hlen : (cur ++ [r]).length = cur.length + 1 := by simp
      by_cases hflush : B ≤ (cur ++ [r]).length
      · -- the pushed record fills the batch exactly
        have hBeq : B = cur.length + 1 := by
          rw [hlen] at hflush
          omega
        rw [if_pos hflush]
        rw [batchLoop_append B (rs.enumFrom (start + 1)) [(st, cur ++ [r])] [] st]
        rw [ih (start + 1) [] st (by simpa using hB)]
        rw [if_pos (by simp : (([] : List α)).isEmpty = true)]
        simp only [List.length_cons]
        by_cases h2 : cur.length + (rs.length + 1) ≤ B
        · rw [if_pos h2]
          have hrs : rs = [] := List.length_eq_zero.mp (by omega)
          subst hrs
          rw [chunkFrom_empty]
          simp
        · rw [if_neg h2]
          have hd : B - cur.length = 1 := by omega
          rw [hd]
          rfl
      · -- the batch still has room: keep filling it
        rw [if_neg hflush]
        have hcur1 : (cur ++ [r]).length < B := by
          rw [hlen] at hflush ⊢
          omega
        rw [ih (start + 1) (cur ++ [r]) st hcur1]
        rw [if_neg (by simp : ¬ (cur ++ [r]).isEmpty = true)]
        simp only [hlen, List.length_cons]
        by_cases h2 : cur.length + (rs.length + 1) ≤ B
        · rw [if_pos h2, if_pos (by omega : cur.length + 1 + rs.length ≤ B)]
          rw [List.append_assoc]
          rfl
        · rw [if_neg (by omega : ¬ cur.length + 1 + rs.length ≤ B), if_neg h2]
          obtain ⟨d, hd⟩ : ∃ d, B - cur.length = d + 1 :=
            ⟨B - (cur.length + 1), by omega⟩
          have hd2 : B - (cur.length + 1) = d := by omega
          rw [hd, hd2, List.take_succ_cons, List.drop_succ_cons]
          have hstart : start + (d + 1) = start + 1 + d := by omega
          rw [hstart, List.append_cons cur r (rs.take d)]

/-- The planner equals the chunk description: drop the resumed prefix, then
cut consecutive chunks starting at index `resume_point`. -/
theorem planBatches_eq_chunk {α : Type} (B R : Nat) (hB : 0 < B)
    (l : List α) :
    planBatches B R l = chunkFrom B R (l.drop R).length (l.drop R) := by
  unfold planBatches
  rw [collectRecords_eq_enumFrom_drop R l 0 (Nat.zero_le R), Nat.sub_zero]
  rw [batchLoop_eq_chunk B hB (l.drop R) R [] 0 (by simpa using hB)]
  rw [if_pos (by simp : (([] : List α)).isEmpty = true)]

/-- Concatenating the chunks gives back the input list. -/
theorem chunk_flatten {α : Type} (B : Nat) (hB : 0 < B) :
    ∀ (n : Nat) (l : List α) (start : Nat), l.length ≤ n →
      ((chunkFrom B start l.length l).map Prod.snd).flatten = l := by
  intro n
  induction n with
  | zero =>
    intro l start h
    have hl : l = [] := List.length_eq_zero.mp (Nat.le_zero.mp h)
    subst hl
    simp [chunkFrom_empty]
  | succ n ih =>
    intro l start hn
    by_cases hl : l = []
    · subst hl
      simp [chunkFrom_empty]
    · rw [chunkFrom_cons B hB l hl start]
      simp only [List.map_cons, List.flatten_cons]
      rw [ih (l.drop B) (start + B) (by simp only [List.length_drop]; omega)]
      exact List.take_append_drop B l

/-- The number of chunks is `⌈length / B⌉`. -/
theorem chunk_length {α : Type} (B : Nat) (hB : 0 < B) :
    ∀ (n : Nat) (l : List α) (start : Nat), l.length ≤ n →
      (chunkFrom B start l.length l).length = (l.length + B - 1) / B := by
  intro n
  induction n with
  | zero =>
    intro l start h
    have hl : l = [] := List.length_eq_zero.mp (Nat.le_zero.mp h)
    subst hl
    rw [List.length_nil, chunkFrom_empty, List.length_nil,
      Nat.div_eq_of_lt (by omega : 0 + B - 1 < B)]
  | succ n ih =>
    intro l start hn
    by_cases hl : l = []
    · subst hl
      rw [List.length_nil, chunkFrom_empty, List.length_nil,
        Nat.div_eq_of_lt (by omega : 0 + B - 1 < B)]
    · rw [chunkFrom_cons B hB l hl start, List.length_cons]
      rw [ih (l.drop B) (start + B) (by simp only [List.length_drop]; omega)]
      rw [List.length_drop]
      have hpos : 0 < l.length := List.length_pos.mpr hl
      rcases Nat.le_total l.length B with hle | hge
      · have h0 : l.length - B = 0 := by omega
        rw [h0, Nat.div_eq_of_lt (by omega : 0 + B - 1 < B)]
        have hsplit : l.length + B - 1 = (l.length - 1) + B := by omega
        rw [hsplit, Nat.add_div_right _ hB,
          Nat.div_eq_of_lt (by omega : l.length - 1 < B)]
      · have hsplit : l.length + B - 1 = (l.length - B + B - 1) + B := by omega
        rw [hsplit, Nat.add_div_right _ hB]

/-- The chunk start indices are `start, start + B, start + 2B, ...`. -/
theorem chunk_map_fst {α : Type} (B : Nat) (hB : 0 < B) :
    ∀ (n : Nat) (l : List α) (start : Nat), l.length ≤ n →
      (chunkFrom B start l.length l).map Prod.fst
        = (List.range (chunkFrom B start l.length l).length).map
            (fun j => start + j * B) := by
  intro n
  induction n with
  | zero =>
    intro l start h
    have hl : l = [] := List.length_eq_zero.mp (Nat.le_zero.mp h)
    subst hl
    simp [chunkFrom_empty]
  | succ n ih =>
    intro l start hn
    by_cases hl : l = []
    · subst hl
      simp [chunkFrom_empty]
    · rw [chunkFrom_cons B hB l hl start]
      simp only [List.map_cons, List.length_cons]
      rw [ih (l.drop B) (start + B) (by simp only [List.length_drop]; omega)]
      rw [List.range_succ_eq_map]
      simp only [List.map_cons, List.map_map]
      congr 1
      · simp
      · refine List.map_congr_left ?_
        intro j _
        show start + B + j * B = start + Nat.succ j * B
        rw [Nat.succ_mul]
        omega
/-- Every chunk except possibly the last has exactly `B` records, and every
chunk is non-empty with at most `B` records. -/
theorem chunk_sizes {α : Type} (B : Nat) (hB : 0 < B) :
    ∀ (n : Nat) (l : List α) (start : Nat), l.length ≤ n →
      (∀ b ∈ (chunkFrom B start l.length l).dropLast, b.2.length = B)
      ∧ (∀ b ∈ chunkFrom B start l.length l,
          0 < b.2.length ∧ b.2.length ≤ B) := by
  intro n
  induction n with
  | zero =>
    intro l start h
    have hl : l = [] := List.length_eq_zero.mp (Nat.le_zero.mp h)
    subst hl
    simp [chunkFrom_empty]
  | succ n ih =>
    intro l start hn
    by_cases hl : l = []
    · subst hl
      simp [chunkFrom_empty]
    · rw [chunkFrom_cons B hB l hl start]
      have hlp : 0 < l.length := List.length_pos.mpr hl
      obtain ⟨ihl, ihall⟩ :=
        ih (l.drop B) (start + B) (by simp only [List.length_drop]; omega)
      constructor
      · intro b hb
        by_cases hdrop : l.drop B = []
        · rw [hdrop, chunkFrom_empty] at hb
          simp only [List.dropLast_single] at hb
          exact absurd hb (List.not_mem_nil b)
        · have hne : chunkFrom B (start + B) (l.drop B).length (l.drop B) ≠ [] := by
            rw [chunkFrom_cons B hB (l.drop B) hdrop (start + B)]
            exact List.cons_ne_nil _ _
          rw [List.dropLast_cons_of_ne_nil hne] at hb
          rcases List.mem_cons.mp hb with rfl | hb'
          · have hBlt : B < l.length := by
              rcases Nat.lt_or_ge B l.length with h' | h'
              · exact h'
              · exact absurd (List.drop_eq_nil_of_le h') hdrop
            exact List.length_take_of_le (by omega)
          · exact ihl b hb'
      · intro b hb
        rcases List.mem_cons.mp hb with rfl | hb'
        · constructor
          · rw [List.length_take]
            omega
          · rw [List.length_take]
            omega
        · exact ihall b hb'

/-- C7: with `resumeFrom = 0` the planner cuts `⌈N / B⌉` batches whose sizes
sum to `N`, all of size `B` except possibly the last, with start indices
`0, B, 2B, ...` in strictly ascending order; with `resumeFrom = R`
(`0 < R < N`) exactly the first `R` records are skipped and the first batch
starts at `R`. -/
theorem planBatches_spec {α : Type} (B R : Nat) (l : List α) (hB : 0 < B) :
    (planBatches B 0 l).length = (l.length + B - 1) / B
    ∧ ((planBatches B 0 l).map (fun b => b.2.length)).sum = l.length
    ∧ (planBatches B 0 l).map Prod.fst
        = (List.range ((planBatches B 0 l).length)).map (fun j => j * B)
    ∧ ((planBatches B 0 l).map Prod.fst).Pairwise (· < ·)
    ∧ (∀ b ∈ (planBatches B 0 l).dropLast, b.2.length = B)
    ∧ (∀ b ∈ planBatches B 0 l, 0 < b.2.length ∧ b.2.length ≤ B)
    ∧ (0 < R → R < l.length →
        ((planBatches B R l).map Prod.snd).flatten = l.drop R
        ∧ (planBatches B R l).head?.map Prod.fst = some R) := by
  have hplan0 : planBatches B 0 l = chunkFrom B 0 l.length l := by
    rw [planBatches_eq_chunk B 0 hB l, List.drop_zero]
  have hlen : (planBatches B 0 l).length = (l.length + B - 1) / B := by
    rw [hplan0]
    exact chunk_length B hB l.length l 0 (le_refl _)
  have hsum : ((planBatches B 0 l).map (fun b => b.2.length)).sum
      = l.length := by
    have hj := congrArg List.length (chunk_flatten B hB l.length l 0 (le_refl _))
    rw [List.length_flatten, List.map_map] at hj
    rw [hplan0]
    exact hj
  have hfst : (planBatches B 0 l).map Prod.fst
      = (List.range ((planBatches B 0 l).length)).map (fun j => j * B) := by
    rw [hplan0, chunk_map_fst B hB l.length l 0 (le_refl _)]
    refine List.map_congr_left ?_
    intro j _
    omega
  refine ⟨hlen, hsum, hfst, ?_, ?_, ?_, ?_⟩
  · rw [hfst]
    refine List.Pairwise.map _ ?_ (List.pairwise_lt_range _)
    intro a b hab
    exact mul_lt_mul_of_pos_right hab hB
  · rw [hplan0]
    exact (chunk_sizes B hB l.length l 0 (le_refl _)).1
  · rw [hplan0]
    exact (chunk_sizes B hB l.length l 0 (le_refl _)).2
  · intro hR hRl
    have hdropne : l.drop R ≠ [] := by
      intro h
      rw [List.drop_eq_nil_iff] at h
      omega
    refine ⟨?_, ?_⟩
    · rw [planBatches_eq_chunk B R hB l]
      exact chunk_flatten B hB (l.drop R).length (l.drop R) R (le_refl _)
    · rw [planBatches_eq_chunk B R hB l,
        chunkFrom_cons B hB (l.drop R) hdropne R]
      rfl

/-- Witness for C7 at `l = [10, 20, 30, 40, 50]`, `B = 2`, `R = 3`. -/
theorem planBatches_spec_witness :
    (planBatches 2 0 ([10, 20, 30, 40, 50] : List Nat)).length
        = (([10, 20, 30, 40, 50] : List Nat).length + 2 - 1) / 2
    ∧ ((planBatches 2 3 ([10, 20, 30, 40, 50] : List Nat)).map
          Prod.snd).flatten = ([10, 20, 30, 40, 50] : List Nat).drop 3
    ∧ (planBatches 2 3 ([10, 20, 30, 40, 50] : List Nat)).head?.map Prod.fst
        = some 3 :=
  ⟨(planBatches_spec 2 3 ([10, 20, 30, 40, 50] : List Nat) (by decide)).1,
   ((planBatches_spec 2 3 ([10, 20, 30, 40, 50] : List Nat)
      (by decide)).2.2.2.2.2.2 (by decide) (by decide)).1,
   ((planBatches_spec 2 3 ([10, 20, 30, 40, 50] : List Nat)
      (by decide)).2.2.2.2.2.2 (by decide) (by decide)).2⟩

end Migration
